import Mathlib

/-!
Shallow embedding of the whatsabi bytecode disassembler / ABI inference
engine (src.ts/disasm.ts) and proofs about it.

Conventions of the embedding:
* a JS `Uint8Array` / byte buffer is a `List Nat` (entries come from hex
  parsing and are < 256);
* a JS string is a `List Char`;
* a JS indexed access that can yield `undefined` is an `Option Nat`
  (`none` = `undefined`); JS strict equality `undefined === k` is `false`
  for every number `k`, and JS relational comparisons against `undefined`
  (which coerces to NaN) are `false`;
* the JS objects used as maps (`jumps`, `dests`, `notPayable`) are
  insertion-ordered association lists where overwriting a key keeps its
  place (JS object key-order semantics for the non-integer-like keys and
  pure-lookup usage of the source);
* an exception is the `Except.error` branch: `ExtractErr.invalidHex` for
  the `ethers.utils.arrayify` failure at cursor construction and
  `ExtractErr.valueOutOfRange` for the `ethers.utils.zeroPad` failure
  ("value out of range" when the padded value is longer than the target
  length, per ethers v5 `bytes.ts`).
-/

namespace WhatsABI

/-! ## JS list primitives -/

/-- JS indexed read `l[n]` for a natural index: `undefined` (`none`) when out
of range. -/
def listGet : List Nat → Nat → Option Nat
  | [], _ => none
  | x :: _, 0 => some x
  | _ :: xs, n + 1 => listGet xs n

/-- In-range indexed read with default (used where the source index is known
in range). -/
def listGetD (l : List Nat) (n : Nat) (d : Nat) : Nat :=
  (listGet l n).getD d

/-- JS indexed read `l[i]` for a possibly-negative index: arrays have no
negative indices, so a negative index yields `undefined`. -/
def jsIndex (l : List Nat) (i : Int) : Option Nat :=
  if i < 0 then none else listGet l i.toNat

/-- `Uint8Array.prototype.slice(a, b)` for `0 ≤ a`: the elements at indices
`[a, min b len)`, empty when `b ≤ a`. -/
def jsSlice (l : List Nat) (a b : Nat) : List Nat :=
  (l.drop a).take (b - a)

/-! ## OpcodeTable (disasm.ts `opcodes`, `pushWidth`, `isPush`, `isLog`) -/

def opSTOP : Nat := 0x00
def opEQ : Nat := 0x14
def opISZERO : Nat := 0x15
def opCALLVALUE : Nat := 0x34
def opJUMPI : Nat := 0x57
def opJUMPDEST : Nat := 0x5b
def opPUSH1 : Nat := 0x60
def opPUSH4 : Nat := 0x63
def opPUSH32 : Nat := 0x7f
def opDUP1 : Nat := 0x80
def opLOG1 : Nat := 0xa1
def opLOG4 : Nat := 0xa4

/-- `pushWidth`: PUSHn width of n if PUSH instruction, otherwise 0. -/
def pushWidth (instruction : Nat) : Nat :=
  if instruction < opPUSH1 ∨ opPUSH32 < instruction then 0
  else instruction - opPUSH1 + 1

/-- `isPush` on a definite (non-undefined) opcode. -/
def isPush (instruction : Nat) : Bool :=
  !(decide (instruction < opPUSH1) || decide (opPUSH32 < instruction))

/-- `isLog`. -/
def isLog (instruction : Nat) : Bool :=
  decide (opLOG1 ≤ instruction) && decide (instruction ≤ opLOG4)

/-- `isPush` applied to a possibly-`undefined` value, as the extractor does
with `at(...)` results: in JS, `isPush(undefined)` evaluates to `true`
because `undefined < PUSH1` and `undefined > PUSH32` are both `false`
(NaN comparisons). -/
def isPushJS (o : Option Nat) : Bool :=
  match o with
  | none => true
  | some v => isPush v

/-- JS strict equality of a possibly-`undefined` value against a number
constant: `undefined === k` is `false`. -/
def eqJS (o : Option Nat) (k : Nat) : Bool :=
  match o with
  | none => false
  | some v => decide (v = k)

/-! ## Hex strings: ethers.utils.arrayify / hexlify / zeroPad / parseInt -/

/-- Value of a single hex digit character (both cases accepted, as in
`ethers.utils.arrayify`). -/
def hexVal (c : Char) : Option Nat :=
  if '0' ≤ c ∧ c ≤ '9' then some (c.toNat - '0'.toNat)
  else if 'a' ≤ c ∧ c ≤ 'f' then some (c.toNat - 'a'.toNat + 10)
  else if 'A' ≤ c ∧ c ≤ 'F' then some (c.toNat - 'A'.toNat + 10)
  else none

/-- Parse pairs of hex digits into bytes; `none` on an odd count or a
non-hex character. -/
def hexPairs : List Char → Option (List Nat)
  | [] => some []
  | [_] => none
  | c1 :: c2 :: rest =>
    match hexVal c1, hexVal c2, hexPairs rest with
    | some hi, some lo, some bs => some ((16 * hi + lo) :: bs)
    | _, _, _ => none

/-- `ethers.utils.arrayify(s, { allowMissingPrefix: true })`: an optional
literal `0x` is stripped, then the string must be an even number of hex
digits; otherwise the call throws (modelled as `none`). -/
def arrayify (s : List Char) : Option (List Nat) :=
  match s with
  | '0' :: 'x' :: rest => hexPairs rest
  | other => hexPairs other

/-- Lowercase hex digit of `n % 16`: the character
`HexCharacters[n % 16]` of the ethers table "0123456789abcdef", written
arithmetically. -/
def hexDigit (n : Nat) : Char :=
  if n % 16 < 10 then Char.ofNat ('0'.toNat + n % 16)
  else Char.ofNat ('a'.toNat + (n % 16 - 10))

/-- The sixteen lowercase hex digit characters. -/
def hexCharList : List Char :=
  (List.range 16).map hexDigit

/-- The digit part of `ethers.utils.hexlify`: two lowercase hex digits per
byte. -/
def hexDigits (bytes : List Nat) : List Char :=
  bytes.foldr (fun v acc => hexDigit (v / 16) :: hexDigit v :: acc) []

/-- `ethers.utils.hexlify` on a byte array: `0x` followed by two lowercase
hex digits per byte. -/
def hexlify (bytes : List Nat) : List Char :=
  '0' :: 'x' :: hexDigits bytes

/-- `ethers.utils.zeroPad(value, len)`: left-pads with zero bytes to
`len`; throws "value out of range" (modelled `none`) when the value is
longer than `len`. -/
def zeroPad (value : List Nat) (len : Nat) : Option (List Nat) :=
  if len < value.length then none
  else some (List.replicate (len - value.length) 0 ++ value)

/-- `parseInt(ethers.utils.hexlify(bytes), 16)`: big-endian value of the
bytes; NaN (modelled `none`) when the byte array is empty (so the hex
string is just `0x`). -/
def parseIntHex (bytes : List Nat) : Option Nat :=
  match bytes with
  | [] => none
  | _ => some (bytes.foldl (fun acc v => 256 * acc + v) 0)

/-! ## BytecodeIter -/

structure BytecodeIter where
  bytecode : List Nat
  nextStep : Nat
  nextPos : Nat
  posBuffer : List Nat
  posBufferSize : Nat
deriving DecidableEq

/-- The constructor (already past hex parsing): `config.bufferSize || 1`
turns a zero/absent size into 1. -/
def mkIter (bytecode : List Nat) (bufferSize : Nat) : BytecodeIter :=
  { bytecode := bytecode
    nextStep := 0
    nextPos := 0
    posBuffer := []
    posBufferSize := if bufferSize = 0 then 1 else bufferSize }

def BytecodeIter.hasMore (it : BytecodeIter) : Bool :=
  decide (it.nextPos < it.bytecode.length)

/-- `next()`: returns STOP without advancing at the end; otherwise reads the
opcode, pushes the current position into the ring (evicting the oldest
entry when full), and advances by `1 + pushWidth`. -/
def BytecodeIter.next (it : BytecodeIter) : Nat × BytecodeIter :=
  if it.bytecode.length ≤ it.nextPos then (opSTOP, it)
  else
    let instruction := listGetD it.bytecode it.nextPos 0
    let width := pushWidth instruction
    let buffer :=
      if it.posBufferSize ≤ it.posBuffer.length then it.posBuffer.tail else it.posBuffer
    (instruction,
      { it with
          posBuffer := buffer ++ [it.nextPos]
          nextStep := it.nextStep + 1
          nextPos := it.nextPos + 1 + width })

/-- `step()`: `nextStep - 1` (a JS number; -1 before iteration starts). -/
def BytecodeIter.step (it : BytecodeIter) : Int :=
  (it.nextStep : Int) - 1

/-- `pos()`: `nextPos - 1` (a JS number; -1 before iteration starts). -/
def BytecodeIter.pos (it : BytecodeIter) : Int :=
  (it.nextPos : Int) - 1

/-- `at(posOrRelativeStep)` (`at` is a Lean keyword, hence `atOp`): a
negative argument is resolved through the ring; a ring miss yields
`undefined`, and `bytecode[undefined]` is again `undefined`. -/
def BytecodeIter.atOp (it : BytecodeIter) (p : Int) : Option Nat :=
  if p < 0 then
    match jsIndex it.posBuffer ((it.posBuffer.length : Int) + p) with
    | none => none
    | some q => jsIndex it.bytecode (q : Int)
  else jsIndex it.bytecode p

/-- `valueAt(posOrRelativeStep)`: the PUSH immediate bytes at the resolved
position. When the resolution or the opcode read yields `undefined` the JS
slice arithmetic degenerates to an empty slice (`slice(NaN, NaN)` /
`slice(pos+1, NaN)`). -/
def BytecodeIter.valueAt (it : BytecodeIter) (p : Int) : List Nat :=
  let posO : Option Nat :=
    if p < 0 then jsIndex it.posBuffer ((it.posBuffer.length : Int) + p)
    else some p.toNat
  match posO with
  | none => []
  | some q =>
    match listGet it.bytecode q with
    | none => []
    | some instruction =>
      jsSlice it.bytecode (q + 1) (q + 1 + pushWidth instruction)

/-- `value()`. -/
def BytecodeIter.value (it : BytecodeIter) : List Nat :=
  it.valueAt (-1)

/-- Iterate `next()` n times, keeping only the final cursor. -/
def runNext (it : BytecodeIter) : Nat → BytecodeIter
  | 0 => it
  | n + 1 => runNext it.next.2 n

/-- Byte offsets at which the decoded instructions of a bytecode start,
from offset `p` on (fuel-indexed; any fuel above the number of remaining
bytes is enough since every instruction consumes at least one byte). -/
def instPositionsAux (bytecode : List Nat) : Nat → Nat → List Nat
  | 0, _ => []
  | fuel + 1, p =>
    if p < bytecode.length then
      p :: instPositionsAux bytecode fuel (p + 1 + pushWidth (listGetD bytecode p 0))
    else []

def instPositions (bytecode : List Nat) : List Nat :=
  instPositionsAux bytecode (bytecode.length + 1) 0

/-! ## ABIExtractor (disasm.ts `abiFromBytecode`) -/

/-- The tagged ABI entry records pushed by the extractor. -/
inductive ABIEntry where
  | event (hash : List Char)
  | func (selector : List Char) (payable : Bool)
deriving DecidableEq

inductive ExtractErr where
  | invalidHex
  | valueOutOfRange
deriving DecidableEq

/-- Insertion-ordered association-list update: overwriting a key keeps its
position (JS object semantics). -/
def upsert {α β : Type} [DecidableEq α] : List (α × β) → α → β → List (α × β)
  | [], k, v => [(k, v)]
  | (k0, v0) :: rest, k, v =>
    if k0 = k then (k0, v) :: rest else (k0, v0) :: upsert rest k v

def lookupA {α β : Type} [DecidableEq α] : List (α × β) → α → Option β
  | [], _ => none
  | (k0, v0) :: rest, k => if k0 = k then some v0 else lookupA rest k

/-- Extractor state threaded through the scan loop. `jumps` values are
`Option Nat` because `parseInt` of an empty immediate is NaN; `dests` and
`notPayable` map a byte offset to the recorded step ordinal. -/
structure ExtractState where
  abi : List ABIEntry
  jumps : List (List Char × Option Nat)
  dests : List (Int × Int)
  notPayable : List (Int × Int)
  lastPush32 : List Nat
deriving DecidableEq

def initState : ExtractState :=
  { abi := [], jumps := [], dests := [], notPayable := [], lastPush32 := [] }

/-- One iteration of the scan loop, applied to the cursor AFTER `next()`
advanced it (the source calls `pos()`, `step()`, `at`, `valueAt` on the
advanced cursor). Mirrors the rule cascade of `abiFromBytecode`:
PUSH32 tracking, LOG topic emission, JUMPDEST bookkeeping with the
non-payable guard, and the selector-dispatch window match. -/
def stepRules (st : ExtractState) (code : BytecodeIter) (instruction : Nat) :
    Except ExtractErr ExtractState :=
  if instruction = opPUSH32 then
    .ok { st with lastPush32 := code.value }
  else if isLog instruction && decide (0 < st.lastPush32.length) then
    .ok { st with abi := st.abi ++ [ABIEntry.event (hexlify st.lastPush32)] }
  else if instruction = opJUMPDEST then
    if eqJS (code.atOp (code.pos + 1)) opCALLVALUE
        && eqJS (code.atOp (code.pos + 2)) opDUP1
        && eqJS (code.atOp (code.pos + 3)) opISZERO then
      .ok { st with
              dests := upsert st.dests code.pos code.step
              notPayable := upsert st.notPayable code.pos code.step }
    else
      .ok { st with dests := upsert st.dests code.pos code.step }
  else if eqJS (code.atOp (-1)) opJUMPI
      && isPushJS (code.atOp (-2))
      && eqJS (code.atOp (-3)) opEQ
      && isPushJS (code.atOp (-4)) then
    match zeroPad (code.valueAt (-4)) 4 with
    | none => .error ExtractErr.valueOutOfRange
    | some value =>
      .ok { st with
              jumps := upsert st.jumps (hexlify value) (parseIntHex (code.valueAt (-2))) }
  else .ok st

/-- The scan loop (`while (code.hasMore())`), fuel-indexed; each iteration
consumes at least one byte, so `bytecode.length + 1` fuel never runs out
(see `extractLoop_fuel_irrel`). -/
def extractLoop : Nat → ExtractState → BytecodeIter → Except ExtractErr ExtractState
  | 0, st, _ => .ok st
  | fuel + 1, st, code =>
    if code.hasMore then
      match stepRules st code.next.2 code.next.1 with
      | .error e => .error e
      | .ok st1 => extractLoop fuel st1 code.next.2
    else .ok st

def extractLoopFull (bytes : List Nat) : Except ExtractErr ExtractState :=
  extractLoop (bytes.length + 1) initState (mkIter bytes 4)

/-- Finalization: one function entry per `jumps` binding, in insertion
order; `payable` is the JS truthiness test `!notPayable[jumps[selector]]`
(`undefined` and `0` are both falsy, NaN never hits a key). -/
def finalize (st : ExtractState) : List ABIEntry :=
  st.abi ++ st.jumps.map (fun kv =>
    ABIEntry.func kv.1
      (match kv.2 with
       | none => true
       | some dest =>
         match lookupA st.notPayable (dest : Int) with
         | none => true
         | some s => decide (s = 0)))

/-- The scan over an already-arrayified byte buffer. -/
def extractBytes (bytes : List Nat) : Except ExtractErr (List ABIEntry) :=
  (extractLoopFull bytes).map finalize

/-- `abiFromBytecode(bytecode)`: hex-decodes the input (cursor
construction), then scans. -/
def abiFromBytecode (s : List Char) : Except ExtractErr (List ABIEntry) :=
  match arrayify s with
  | none => .error ExtractErr.invalidHex
  | some bytes => extractBytes bytes

end WhatsABI

namespace WhatsABI

instance {ε α : Type} [DecidableEq ε] [DecidableEq α] : DecidableEq (Except ε α) :=
  fun a b =>
    match a, b with
    | .ok x, .ok y =>
      if h : x = y then .isTrue (by rw [h]) else .isFalse (by intro hh; cases hh; exact h rfl)
    | .error x, .error y =>
      if h : x = y then .isTrue (by rw [h]) else .isFalse (by intro hh; cases hh; exact h rfl)
    | .ok _, .error _ => .isFalse (by intro hh; cases hh)
    | .error _, .ok _ => .isFalse (by intro hh; cases hh)

/-! ## Basic lemmas about the JS list primitives -/

lemma listGet_lt : ∀ (l : List Nat) (n : Nat), n < l.length →
    listGet l n = some (listGetD l n 0)
  | [], n, h => absurd h (by simp)
  | x :: _, 0, _ => rfl
  | _ :: xs, n + 1, h => by
    simpa [listGet, listGetD] using listGet_lt xs n (by simpa using h)

lemma listGet_ge : ∀ (l : List Nat) (n : Nat), l.length ≤ n → listGet l n = none
  | [], _, _ => rfl
  | _ :: _, 0, h => absurd h (by simp)
  | _ :: xs, n + 1, h => by
    simpa [listGet] using listGet_ge xs n (by simpa using h)

lemma listGet_drop : ∀ (l : List Nat) (n i : Nat), listGet (l.drop n) i = listGet l (n + i)
  | _, 0, _ => by simp
  | [], n + 1, i => by simp [listGet]
  | _ :: xs, n + 1, i => by
    simpa [listGet, Nat.succ_add] using listGet_drop xs n i

lemma listGet_take : ∀ (l : List Nat) (n i : Nat), i < n →
    listGet (l.take n) i = listGet l i
  | _, 0, i, h => absurd h (by omega)
  | [], _ + 1, _, _ => by simp
  | _ :: _, n + 1, 0, _ => rfl
  | _ :: xs, n + 1, i + 1, h => by
    simpa [listGet] using listGet_take xs n i (by omega)

lemma listGet_concat_length : ∀ (l : List Nat) (x : Nat), listGet (l ++ [x]) l.length = some x
  | [], x => rfl
  | _ :: xs, x => by simpa [listGet] using listGet_concat_length xs x

/-! ## Cursor lemmas -/

lemma BytecodeIter.next_of_end (it : BytecodeIter) (h : it.bytecode.length ≤ it.nextPos) :
    it.next = (opSTOP, it) := by
  unfold BytecodeIter.next
  rw [if_pos h]

lemma BytecodeIter.next_of_hasMore (it : BytecodeIter) (h : it.nextPos < it.bytecode.length) :
    it.next = (listGetD it.bytecode it.nextPos 0,
      { it with
          posBuffer :=
            (if it.posBufferSize ≤ it.posBuffer.length then it.posBuffer.tail
             else it.posBuffer) ++ [it.nextPos]
          nextStep := it.nextStep + 1
          nextPos := it.nextPos + 1 + pushWidth (listGetD it.bytecode it.nextPos 0) }) := by
  unfold BytecodeIter.next
  rw [if_neg (by omega)]

lemma BytecodeIter.next_bytecode (it : BytecodeIter) : (it.next.2).bytecode = it.bytecode := by
  unfold BytecodeIter.next
  split <;> rfl

lemma BytecodeIter.next_posBufferSize (it : BytecodeIter) :
    (it.next.2).posBufferSize = it.posBufferSize := by
  unfold BytecodeIter.next
  split <;> rfl

lemma runNext_bytecode (it : BytecodeIter) : ∀ n, (runNext it n).bytecode = it.bytecode
  | 0 => rfl
  | n + 1 => by
    rw [runNext, runNext_bytecode it.next.2 n, BytecodeIter.next_bytecode]

lemma runNext_posBufferSize (it : BytecodeIter) :
    ∀ n, (runNext it n).posBufferSize = it.posBufferSize
  | 0 => rfl
  | n + 1 => by
    rw [runNext, runNext_posBufferSize it.next.2 n, BytecodeIter.next_posBufferSize]

lemma runNext_succ (it : BytecodeIter) : ∀ n, runNext it (n + 1) = (runNext it n).next.2
  | 0 => rfl
  | n + 1 => by
    rw [runNext, runNext_succ it.next.2 n]
    rfl

end WhatsABI

namespace WhatsABI

/-! ## The decode trace: instruction start positions -/

lemma instPositionsAux_lt (B : List Nat) :
    ∀ (fuel p m : Nat), m < (instPositionsAux B fuel p).length →
      (instPositionsAux B fuel p).getD m 0 < B.length
  | 0, _, m, h => absurd h (by simp [instPositionsAux])
  | fuel + 1, p, m, h => by
    rw [instPositionsAux] at h ⊢
    by_cases hp : p < B.length
    · rw [if_pos hp] at h ⊢
      match m with
      | 0 => simpa using hp
      | m + 1 =>
        simpa using instPositionsAux_lt B fuel _ m (by simpa using h)
    · rw [if_neg hp] at h
      simp at h

/-- After `m` decoding calls to `next()` starting anywhere in a bytecode,
`nextPos` is the position of the `m`-th remaining instruction and
`nextStep` has grown by `m` (any buffer contents, any capacity). -/
lemma posAfter (B : List Nat) :
    ∀ (fuel p t : Nat) (buf : List Nat) (K m : Nat),
      B.length - p < fuel → m < (instPositionsAux B fuel p).length →
      (runNext ⟨B, t, p, buf, K⟩ m).nextPos = (instPositionsAux B fuel p).getD m 0
      ∧ (runNext ⟨B, t, p, buf, K⟩ m).nextStep = t + m
  | 0, p, _, _, _, _, hfuel, _ => absurd hfuel (by omega)
  | fuel + 1, p, t, buf, K, m, hfuel, hm => by
    rw [instPositionsAux] at hm ⊢
    by_cases hp : p < B.length
    · rw [if_pos hp] at hm ⊢
      match m with
      | 0 => exact ⟨rfl, rfl⟩
      | m + 1 =>
        have hnext :
            (⟨B, t, p, buf, K⟩ : BytecodeIter).next.2 =
              ⟨B, t + 1, p + 1 + pushWidth (listGetD B p 0),
                (if K ≤ buf.length then buf.tail else buf) ++ [p], K⟩ := by
          rw [BytecodeIter.next_of_hasMore ⟨B, t, p, buf, K⟩ hp]
        have ih := posAfter B fuel (p + 1 + pushWidth (listGetD B p 0)) (t + 1)
          ((if K ≤ buf.length then buf.tail else buf) ++ [p]) K m
          (by omega) (by simpa using hm)
        rw [runNext, hnext]
        refine ⟨ih.1, by rw [ih.2]; omega⟩
    · rw [if_neg hp] at hm
      simp at hm

lemma instPositions_lt (B : List Nat) (m : Nat) (hm : m < (instPositions B).length) :
    (instPositions B).getD m 0 < B.length :=
  instPositionsAux_lt B (B.length + 1) 0 m hm

/-- Specialization of `posAfter` to the cursor the extractor builds. -/
lemma runNext_mkIter_spec (B : List Nat) (K m : Nat) (hm : m < (instPositions B).length) :
    (runNext (mkIter B K) m).nextPos = (instPositions B).getD m 0
    ∧ (runNext (mkIter B K) m).nextStep = m := by
  have h := posAfter B (B.length + 1) 0 0 [] (if K = 0 then 1 else K) m (by omega) hm
  exact ⟨h.1, by simpa using h.2⟩

end WhatsABI

namespace WhatsABI

/-! ## Claim C1 -/

/-- C1 counterexample: for the bytecode `60 00` (a single PUSH1), after the
first `next()` the decoded instruction starts at byte 0, but `pos()` is 1
(and the claimed sum `1 + push_width` over the decoded instruction is 2),
so `pos()` equals neither the instruction's start byte nor the claimed sum. -/
theorem C1_counterexample :
    (runNext (mkIter [0x60, 0x00] 1) 1).pos = 1 ∧ instPositions [0x60, 0x00] = [0] := by
  constructor <;> decide

/-- C1 (amended): immediately after the `next()` that decodes the
instruction of step ordinal `s`, `pos()` equals that instruction's start
byte PLUS the instruction's push width (it is `nextPos - 1`), so it equals
the start byte exactly when the instruction is not a PUSH; `step()` equals
the step ordinal `s`. -/
theorem C1_pos_after_next (B : List Nat) (K s : Nat) (hs : s < (instPositions B).length) :
    (runNext (mkIter B K) (s + 1)).pos =
      ((instPositions B).getD s 0 : Int)
        + (pushWidth (listGetD B ((instPositions B).getD s 0) 0) : Int)
    ∧ (runNext (mkIter B K) (s + 1)).step = (s : Int) := by
  obtain ⟨h1, h2⟩ := runNext_mkIter_spec B K s hs
  have hlt := instPositions_lt B s hs
  have hb : (runNext (mkIter B K) s).bytecode = B := runNext_bytecode _ _
  rw [runNext_succ]
  have hnext := BytecodeIter.next_of_hasMore (runNext (mkIter B K) s)
    (by rw [hb, h1]; exact hlt)
  rw [hnext]
  unfold BytecodeIter.pos BytecodeIter.step
  simp only [hb, h1, h2]
  constructor <;> push_cast <;> omega

/-- C1 witness: on `60 00` with step 0 the amended statement evaluates:
`pos() = 0 + 1 = 1` and `step() = 0`. -/
theorem C1_witness :
    (runNext (mkIter [0x60, 0x00] 1) 1).pos = 1
    ∧ (runNext (mkIter [0x60, 0x00] 1) 1).step = 0 := by
  obtain ⟨h1, h2⟩ := C1_pos_after_next [0x60, 0x00] 1 0 (by decide)
  exact ⟨by rw [h1]; decide, by rw [h2]; decide⟩

/-! ## Claim C3 -/

/-- C3 (code bug): on bytecode
`5b 34 80 15 80 63 01 02 03 04 14 60 00 57` the JUMPDEST at byte 0 is
followed by CALLVALUE DUP1 ISZERO and is the recorded destination of
selector `0x01020304`, yet the emitted entry has `payable = true`: the
guard was recorded as `notPayable[0] = 0` (step ordinal 0) and the
source's JS truthiness test `!notPayable[dest]` treats the stored `0` as
absent. The claim (payable=false iff the guard was decoded at the
destination) is the documented intent; the code deviates on this input. -/
theorem C3_bug_eval :
    abiFromBytecode "5b34801580630102030414600057".toList
      = .ok [ABIEntry.func ['0', 'x', '0', '1', '0', '2', '0', '3', '0', '4'] true] := by
  rfl

/-! ## Claim C7 -/

/-- C7: for an input consisting of PUSH32 with an arbitrary 32-byte
immediate followed by two LOG instructions (`7f <T> a1 a2`), extraction
returns exactly two event entries, both with the hash of that immediate:
the immediate is not cleared by emission. -/
theorem C7_sticky_push32
    (t0 t1 t2 t3 t4 t5 t6 t7 t8 t9 t10 t11 t12 t13 t14 t15 t16 t17 t18 t19
      t20 t21 t22 t23 t24 t25 t26 t27 t28 t29 t30 t31 : Nat) :
    extractBytes (opPUSH32 ::
      [t0, t1, t2, t3, t4, t5, t6, t7, t8, t9, t10, t11, t12, t13, t14, t15,
       t16, t17, t18, t19, t20, t21, t22, t23, t24, t25, t26, t27, t28, t29, t30, t31]
      ++ [opLOG1, opLOG1 + 1]) =
    .ok [ABIEntry.event (hexlify
      [t0, t1, t2, t3, t4, t5, t6, t7, t8, t9, t10, t11, t12, t13, t14, t15,
       t16, t17, t18, t19, t20, t21, t22, t23, t24, t25, t26, t27, t28, t29, t30, t31]),
      ABIEntry.event (hexlify
      [t0, t1, t2, t3, t4, t5, t6, t7, t8, t9, t10, t11, t12, t13, t14, t15,
       t16, t17, t18, t19, t20, t21, t22, t23, t24, t25, t26, t27, t28, t29, t30, t31])] := by
  rfl

/-! ## Claim C8 -/

/-- C8 counterexample: `at(5)` on a 1-byte bytecode does not return the
claimed sentinel opcode 0/STOP; the JS indexed read yields `undefined`
(modelled `none`). -/
theorem C8_counterexample :
    (mkIter [0x00] 1).atOp 5 ≠ some opSTOP := by
  decide

/-- C8 (amended): for every cursor and every position `p ≥ len(bytecode)`,
`at(p)` returns `undefined` (`none`), a defined result that compares
unequal to every opcode; it is not the number 0. -/
theorem C8_at_out_of_range (it : BytecodeIter) (p : Int)
    (h : (it.bytecode.length : Int) ≤ p) : it.atOp p = none := by
  unfold BytecodeIter.atOp
  rw [if_neg (by omega)]
  unfold jsIndex
  rw [if_neg (by omega)]
  exact listGet_ge _ _ (by omega)

/-- C8 witness: the amended statement evaluated on a concrete cursor. -/
theorem C8_witness : (mkIter [0x00] 1).atOp 5 = none :=
  C8_at_out_of_range (mkIter [0x00] 1) 5 (by decide)

/-! ## Claim C9 -/

/-- C9 (code bug): on bytecode `14 60 37 57` (EQ, PUSH1 0x37, JUMPI) only
three instructions are decoded, yet rule E4 matches and records a jumps
entry: `at(-4)` misses the 3-entry ring and yields `undefined`, and the
JS `isPush(undefined)` is `true` (both NaN comparisons are false), so the
window check passes; `valueAt(-4)` degenerates to an empty slice which is
zero-padded to the phantom selector `0x00000000` with destination 0x37.
The claim (no entry recorded before step 4) matches the spec's required
short-circuit; the code deviates. -/
theorem C9_bug_eval :
    abiFromBytecode "14603757".toList
      = .ok [ABIEntry.func ['0', 'x', '0', '0', '0', '0', '0', '0', '0', '0'] true] := by
  rfl

end WhatsABI

namespace WhatsABI

/-! ## Loop housekeeping lemmas -/

lemma BytecodeIter.next_nextPos_lt (it : BytecodeIter) (h : it.nextPos < it.bytecode.length) :
    it.nextPos < (it.next.2).nextPos := by
  rw [BytecodeIter.next_of_hasMore it h]
  simp only []
  omega

/-- Any fuel above the number of not-yet-decoded bytes gives the same
result: the loop, which consumes at least one byte per iteration, is fuel
insensitive. This justifies the `bytecode.length + 1` fuel of
`extractLoopFull` as a faithful rendering of `while (code.hasMore())`. -/
lemma extractLoop_fuel_irrel :
    ∀ (f g : Nat) (st : ExtractState) (code : BytecodeIter),
      code.bytecode.length - code.nextPos < f →
      code.bytecode.length - code.nextPos < g →
      extractLoop f st code = extractLoop g st code
  | 0, _, _, _, hf, _ => absurd hf (by omega)
  | _ + 1, 0, _, _, _, hg => absurd hg (by omega)
  | f + 1, g + 1, st, code, hf, hg => by
    rw [extractLoop, extractLoop]
    by_cases hm : code.hasMore
    · rw [if_pos hm, if_pos hm]
      have hmore : code.nextPos < code.bytecode.length := by
        simpa [BytecodeIter.hasMore] using hm
      have hb := BytecodeIter.next_bytecode code
      have hp := BytecodeIter.next_nextPos_lt code hmore
      cases stepRules st code.next.2 code.next.1 with
      | error e => rfl
      | ok st1 =>
        refine extractLoop_fuel_irrel f g st1 code.next.2 ?_ ?_ <;> rw [hb] <;> omega
    · rw [if_neg hm, if_neg hm]

lemma stepRules_ne_invalidHex (st : ExtractState) (code : BytecodeIter) (instruction : Nat) :
    stepRules st code instruction ≠ .error ExtractErr.invalidHex := by
  intro h
  unfold stepRules at h
  repeat' split at h
  all_goals simp at h

lemma extractLoop_ne_invalidHex :
    ∀ (fuel : Nat) (st : ExtractState) (code : BytecodeIter),
      extractLoop fuel st code ≠ .error ExtractErr.invalidHex
  | 0, st, code => by simp [extractLoop]
  | fuel + 1, st, code => by
    intro h
    rw [extractLoop] at h
    split at h
    · split at h
      · rename_i e heq
        cases h
        exact stepRules_ne_invalidHex _ _ _ heq
      · exact extractLoop_ne_invalidHex fuel _ _ h
    · simp at h

/-! ## Claim C2 -/

/-- C2 counterexample: `64 01 02 03 04 05 14 60 37 57` is well-formed hex
(arrayify succeeds), the instruction stream is not even truncated, yet
extraction raises: the dispatcher window matches with a PUSH5 in the
selector slot and `ethers.utils.zeroPad(<5 bytes>, 4)` throws
"value out of range". -/
theorem C2_counterexample :
    arrayify "64010203040514603757".toList ≠ none
    ∧ abiFromBytecode "64010203040514603757".toList = .error ExtractErr.valueOutOfRange := by
  exact ⟨by decide, by rfl⟩

/-- C2 (amended): the construction-time hex error is raised if and only if
the input hex string is malformed — the scan itself never raises it. The
scan is, however, not total on well-formed inputs: it can raise the
distinct zero-pad range error (see the counterexample), so "raises iff
malformed hex" is false as stated. -/
theorem C2_invalidHex_iff (s : List Char) :
    abiFromBytecode s = .error ExtractErr.invalidHex ↔ arrayify s = none := by
  unfold abiFromBytecode
  cases h : arrayify s with
  | none => simp
  | some bytes =>
    simp only [reduceCtorEq, iff_false]
    intro hh
    unfold extractBytes at hh
    cases hl : extractLoopFull bytes with
    | error e =>
      rw [hl] at hh
      simp only [Except.map] at hh
      cases hh
      exact extractLoop_ne_invalidHex _ _ _ hl
    | ok st =>
      rw [hl] at hh
      simp [Except.map] at hh

/-- C2 witness: the amended statement evaluated at a malformed and at a
well-formed input. -/
theorem C2_witness :
    (abiFromBytecode "zz".toList = .error ExtractErr.invalidHex ↔ arrayify "zz".toList = none)
    ∧ (abiFromBytecode "60".toList = .error ExtractErr.invalidHex ↔ arrayify "60".toList = none) :=
  ⟨C2_invalidHex_iff "zz".toList, C2_invalidHex_iff "60".toList⟩

end WhatsABI

namespace WhatsABI

/-! ## Generic loop invariant -/

lemma extractLoop_inv (Q : ExtractState → BytecodeIter → Prop)
    (hstep : ∀ st code st1, code.hasMore = true → Q st code →
      stepRules st code.next.2 code.next.1 = .ok st1 → Q st1 code.next.2) :
    ∀ (fuel : Nat) (st : ExtractState) (code : BytecodeIter) (stF : ExtractState),
      Q st code → extractLoop fuel st code = .ok stF → ∃ c, Q stF c
  | 0, st, code, stF, hq, h => by
    rw [extractLoop] at h
    injection h with h
    subst h
    exact ⟨code, hq⟩
  | fuel + 1, st, code, stF, hq, h => by
    rw [extractLoop] at h
    split at h
    · rename_i hmore
      split at h
      · simp at h
      · rename_i st1 heq
        exact extractLoop_inv Q hstep fuel st1 code.next.2 stF
          (hstep st code st1 hmore hq heq) h
    · injection h with h
      subst h
      exact ⟨code, hq⟩

/-! ## Hexlify shape lemmas -/

lemma hexDigits_length : ∀ bytes : List Nat, (hexDigits bytes).length = 2 * bytes.length
  | [] => rfl
  | _ :: xs => by
    have := hexDigits_length xs
    simp only [hexDigits, List.foldr] at this ⊢
    simp [this]
    omega

lemma hexlify_length (bytes : List Nat) : (hexlify bytes).length = 2 + 2 * bytes.length := by
  simp [hexlify, hexDigits_length]
  omega

lemma jsSlice_length (l : List Nat) (a b : Nat) :
    (jsSlice l a b).length = min (b - a) (l.length - a) := by
  simp [jsSlice]

/-- The `value()` of the cursor right after a decoding `next()` is the
slice of immediate bytes following the opcode just decoded. -/
lemma value_after_next (code : BytecodeIter) (h : code.nextPos < code.bytecode.length) :
    (code.next.2).value
      = jsSlice code.bytecode (code.nextPos + 1)
          (code.nextPos + 1 + pushWidth (listGetD code.bytecode code.nextPos 0)) := by
  rw [BytecodeIter.next_of_hasMore code h]
  unfold BytecodeIter.value BytecodeIter.valueAt
  simp only []
  rw [if_pos (by omega : (-1 : Int) < 0)]
  have hlen :
      ((((if code.posBufferSize ≤ code.posBuffer.length then code.posBuffer.tail
          else code.posBuffer) ++ [code.nextPos]).length : Int) + (-1))
        = (((if code.posBufferSize ≤ code.posBuffer.length then code.posBuffer.tail
          else code.posBuffer)).length : Int) := by
    simp
  rw [hlen]
  unfold jsIndex
  rw [if_neg (by omega)]
  rw [Int.toNat_natCast, listGet_concat_length]
  simp only []
  rw [listGet_lt _ _ h]

/-- Shape of an ethers hex string: `0x` followed by exactly `n` lowercase
hex digit characters. -/
def hexStrShapeB (n : Nat) (s : List Char) : Bool :=
  match s with
  | '0' :: 'x' :: digits =>
    decide (digits.length = n) && digits.all (fun c => decide (c ∈ hexCharList))
  | _ => false

lemma hexDigit_mem (n : Nat) : hexDigit n ∈ hexCharList := by
  have hsame : hexDigit n = hexDigit (n % 16) := by
    unfold hexDigit
    have hmm : n % 16 % 16 = n % 16 := by omega
    rw [hmm]
  rw [hsame]
  exact List.mem_map.mpr ⟨n % 16, List.mem_range.mpr (by omega), rfl⟩

lemma hexDigits_mem : ∀ (b : List Nat) (c : Char), c ∈ hexDigits b → c ∈ hexCharList
  | [], c, h => absurd h (by simp [hexDigits])
  | v :: vs, c, h => by
    simp only [hexDigits, List.foldr] at h
    rcases List.mem_cons.mp h with h | h
    · rw [h]
      exact hexDigit_mem _
    · rcases List.mem_cons.mp h with h | h
      · rw [h]
        exact hexDigit_mem _
      · exact hexDigits_mem vs c h

lemma hexStrShapeB_hexlify {w : List Nat} {m : Nat} (h : w.length = m) :
    hexStrShapeB (2 * m) (hexlify w) = true := by
  unfold hexlify hexStrShapeB
  simp only [Bool.and_eq_true, decide_eq_true_eq]
  refine ⟨by rw [hexDigits_length, h], ?_⟩
  rw [List.all_eq_true]
  intro c hc
  simpa using hexDigits_mem w c hc

/-! ## Claim C6 -/

/-- Entries of the accumulated ABI list that are events have 66-character
hashes of the canonical `0x` + 64 lowercase hex digit shape. -/
def EventsOk (l : List ABIEntry) : Prop :=
  ∀ h : List Char, ABIEntry.event h ∈ l → h.length = 66 ∧ hexStrShapeB 64 h = true

/-- Loop invariant for C6: all emitted events have 66-character hashes,
and `lastPush32` is empty or full 32 bytes — except possibly when a
truncated PUSH32 has pushed `nextPos` past the end, in which case the
loop is about to stop. -/
def C6Inv (st : ExtractState) (code : BytecodeIter) : Prop :=
  EventsOk st.abi
  ∧ (st.lastPush32 = [] ∨ st.lastPush32.length = 32
      ∨ code.bytecode.length < code.nextPos)


lemma C6_step : ∀ (st : ExtractState) (code : BytecodeIter) (st1 : ExtractState),
    code.hasMore = true → C6Inv st code →
    stepRules st code.next.2 code.next.1 = .ok st1 → C6Inv st1 code.next.2 := by
  intro st code st1 hmore hq heq
  have hmore' : code.nextPos < code.bytecode.length := by
    simpa [BytecodeIter.hasMore] using hmore
  have hinst : code.next.1 = listGetD code.bytecode code.nextPos 0 := by
    rw [BytecodeIter.next_of_hasMore code hmore']
  have hpos : (code.next.2).nextPos
      = code.nextPos + 1 + pushWidth (listGetD code.bytecode code.nextPos 0) := by
    rw [BytecodeIter.next_of_hasMore code hmore']
  have hbyte : (code.next.2).bytecode = code.bytecode := BytecodeIter.next_bytecode code
  have hfull : st.lastPush32 = [] ∨ st.lastPush32.length = 32 := by
    rcases hq.2 with h | h | h
    · exact Or.inl h
    · exact Or.inr h
    · omega
  unfold stepRules at heq
  split at heq
  · -- E1: PUSH32, lastPush32 := value()
    rename_i h1
    injection heq with heq
    subst heq
    refine ⟨hq.1, ?_⟩
    have hw : pushWidth (listGetD code.bytecode code.nextPos 0) = 32 := by
      rw [← hinst, h1]
      decide
    simp only []
    rw [value_after_next code hmore', hpos, hw, hbyte]
    by_cases hend : code.nextPos + 1 + 32 ≤ code.bytecode.length
    · refine Or.inr (Or.inl ?_)
      rw [jsSlice_length]
      omega
    · exact Or.inr (Or.inr (by omega))
  · split at heq
    · -- E2: LOG with non-empty lastPush32
      rename_i h2
      injection heq with heq
      subst heq
      have h32 : st.lastPush32.length = 32 := by
        rcases hfull with h | h
        · rw [h] at h2
          simp at h2
        · exact h
      refine ⟨?_, ?_⟩
      · intro hs hmem
        rcases List.mem_append.mp hmem with hmem | hmem
        · exact hq.1 hs hmem
        · simp only [List.mem_singleton] at hmem
          injection hmem with hmem
          refine ⟨by rw [hmem, hexlify_length, h32], ?_⟩
          rw [hmem]
          exact hexStrShapeB_hexlify h32
      · exact Or.inr (Or.inl h32)
    · split at heq
      · -- E3: JUMPDEST
        split at heq
        · injection heq with heq
          subst heq
          exact ⟨hq.1, Or.imp_right (fun h => Or.inl h) hfull⟩
        · injection heq with heq
          subst heq
          exact ⟨hq.1, Or.imp_right (fun h => Or.inl h) hfull⟩
      · split at heq
        · -- E4
          split at heq
          · simp at heq
          · injection heq with heq
            subst heq
            exact ⟨hq.1, Or.imp_right (fun h => Or.inl h) hfull⟩
        · -- no rule
          injection heq with heq
          subst heq
          exact ⟨hq.1, Or.imp_right (fun h => Or.inl h) hfull⟩

/-- C6: every event entry in a successful extraction has a hash of exactly
66 characters (0x plus 64 hex digits): a LOG can only consume a fully
recorded 32-byte PUSH32 immediate, since a truncated immediate at the
tail ends the scan before any further instruction decodes. -/
theorem C6_event_hash_length (s : List Char) (abi : List ABIEntry)
    (h : abiFromBytecode s = .ok abi) :
    ∀ hs : List Char, ABIEntry.event hs ∈ abi →
      hs.length = 66 ∧ hexStrShapeB 64 hs = true := by
  unfold abiFromBytecode at h
  cases ha : arrayify s with
  | none => rw [ha] at h; simp at h
  | some bytes =>
    rw [ha] at h
    have h2 : Except.map finalize (extractLoopFull bytes) = .ok abi := h
    cases hl : extractLoopFull bytes with
    | error e =>
      rw [hl] at h2
      simp [Except.map] at h2
    | ok st =>
      rw [hl] at h2
      simp only [Except.map] at h2
      injection h2 with h2
      subst h2
      unfold extractLoopFull at hl
      obtain ⟨c, hc⟩ := extractLoop_inv C6Inv C6_step _ _ _ _
        ⟨fun _ hmem => absurd hmem (List.not_mem_nil _), Or.inl rfl⟩ hl
      intro hs hmem
      unfold finalize at hmem
      rcases List.mem_append.mp hmem with hmem | hmem
      · exact hc.1 hs hmem
      · exfalso
        obtain ⟨kv, _, hkv⟩ := List.mem_map.mp hmem
        exact ABIEntry.noConfusion hkv

/-- C6 witness: a concrete PUSH32/LOG1 bytecode whose single event hash
has length 66. -/
theorem C6_witness :
    (hexlify (List.replicate 32 0)).length = 66
    ∧ hexStrShapeB 64 (hexlify (List.replicate 32 0)) = true := by
  refine C6_event_hash_length
    ("7f" ++ String.mk (List.replicate 64 '0') ++ "a1").toList
    [ABIEntry.event (hexlify (List.replicate 32 0))] (by decide)
    (hexlify (List.replicate 32 0)) (by decide)


/-! ## Association-list helpers -/

lemma upsert_keys {α β : Type} [DecidableEq α] (Pk : α → Prop) :
    ∀ (m : List (α × β)) (k : α) (v : β),
      (∀ kv ∈ m, Pk kv.1) → Pk k → ∀ kv ∈ upsert m k v, Pk kv.1
  | [], k, v, _, hk, kv, hmem => by
    simp only [upsert, List.mem_singleton] at hmem
    rw [hmem]
    exact hk
  | (k0, v0) :: rest, k, v, hm, hk, kv, hmem => by
    unfold upsert at hmem
    split at hmem
    · rcases List.mem_cons.mp hmem with hmem | hmem
      · rw [hmem]
        exact hm (k0, v0) (List.mem_cons_self _ _)
      · exact hm kv (List.mem_cons_of_mem _ hmem)
    · rcases List.mem_cons.mp hmem with hmem | hmem
      · rw [hmem]
        exact hm (k0, v0) (List.mem_cons_self _ _)
      · exact upsert_keys Pk rest k v (fun x hx => hm x (List.mem_cons_of_mem _ hx)) hk kv hmem

lemma eqJS_eq {o : Option Nat} {k : Nat} (h : eqJS o k = true) : o = some k := by
  cases o with
  | none => simp [eqJS] at h
  | some v =>
    simp only [eqJS, decide_eq_true_eq] at h
    rw [h]

/-! ## Claim C4 -/

/-- Canonical selector shape: `0x` followed by exactly 8 lowercase hex
digit characters. -/
def selShapeB (sel : List Char) : Bool :=
  hexStrShapeB 8 sel

lemma zeroPad_some_length {v : List Nat} {n : Nat} {w : List Nat}
    (h : zeroPad v n = some w) : w.length = n := by
  unfold zeroPad at h
  split at h
  · simp at h
  · rename_i hle
    injection h with h
    rw [← h]
    simp only [List.length_append, List.length_replicate]
    omega

lemma selShapeB_hexlify {w : List Nat} (h : w.length = 4) : selShapeB (hexlify w) = true := by
  unfold selShapeB
  exact hexStrShapeB_hexlify h

/-- No function entry is ever pushed during the scan itself (functions are
appended only at finalization). -/
def NoFunc (l : List ABIEntry) : Prop :=
  ∀ (sel : List Char) (p : Bool), ABIEntry.func sel p ∉ l

def C4Inv (st : ExtractState) (_ : BytecodeIter) : Prop :=
  (∀ kv ∈ st.jumps, selShapeB kv.1 = true) ∧ NoFunc st.abi

lemma C4_step : ∀ (st : ExtractState) (code : BytecodeIter) (st1 : ExtractState),
    code.hasMore = true → C4Inv st code →
    stepRules st code.next.2 code.next.1 = .ok st1 → C4Inv st1 code.next.2 := by
  intro st code st1 _ hq heq
  unfold stepRules at heq
  split at heq
  · injection heq with heq
    subst heq
    exact hq
  · split at heq
    · injection heq with heq
      subst heq
      refine ⟨hq.1, ?_⟩
      intro sel p hmem
      rcases List.mem_append.mp hmem with hmem | hmem
      · exact hq.2 sel p hmem
      · simp only [List.mem_singleton] at hmem
        exact ABIEntry.noConfusion hmem
    · split at heq
      · split at heq
        · injection heq with heq
          subst heq
          exact hq
        · injection heq with heq
          subst heq
          exact hq
      · split at heq
        · split at heq
          · simp at heq
          · rename_i value hzp
            injection heq with heq
            subst heq
            refine ⟨?_, hq.2⟩
            exact upsert_keys (fun k => selShapeB k = true) st.jumps (hexlify value) _
              hq.1 (selShapeB_hexlify (zeroPad_some_length hzp)) 
        · injection heq with heq
          subst heq
          exact hq

/-- C4: every function selector in a successful extraction is a
10-character string: `0x` followed by exactly 8 lowercase hex digits
(short PUSHk immediates are zero-left-padded to 4 bytes before
rendering). -/
theorem C4_selector_shape (s : List Char) (abi : List ABIEntry)
    (h : abiFromBytecode s = .ok abi) :
    ∀ (sel : List Char) (p : Bool), ABIEntry.func sel p ∈ abi → selShapeB sel = true := by
  unfold abiFromBytecode at h
  cases ha : arrayify s with
  | none => rw [ha] at h; simp at h
  | some bytes =>
    rw [ha] at h
    have h2 : Except.map finalize (extractLoopFull bytes) = .ok abi := h
    cases hl : extractLoopFull bytes with
    | error e =>
      rw [hl] at h2
      simp [Except.map] at h2
    | ok st =>
      rw [hl] at h2
      simp only [Except.map] at h2
      injection h2 with h2
      subst h2
      unfold extractLoopFull at hl
      obtain ⟨c, hc⟩ := extractLoop_inv C4Inv C4_step _ _ _ _
        ⟨fun _ hmem => absurd hmem (List.not_mem_nil _),
         fun _ _ hmem => absurd hmem (List.not_mem_nil _)⟩ hl
      intro sel p hmem
      unfold finalize at hmem
      rcases List.mem_append.mp hmem with hmem | hmem
      · exact absurd hmem (hc.2 sel p)
      · obtain ⟨kv, hkvm, hkv⟩ := List.mem_map.mp hmem
        injection hkv with hsel _
        rw [← hsel]
        exact hc.1 kv hkvm

/-- C4 witness: the selector extracted from the single-dispatch bytecode
`80 63 2e 64 ce c1 14 60 37 57 00` has the canonical shape. -/
theorem C4_witness : selShapeB (hexlify [0x2e, 0x64, 0xce, 0xc1]) = true := by
  refine C4_selector_shape "80632e64cec11460375700".toList
    [ABIEntry.func (hexlify [0x2e, 0x64, 0xce, 0xc1]) true] (by decide)
    (hexlify [0x2e, 0x64, 0xce, 0xc1]) true (by decide)

/-! ## Claim C10 -/

/-- Every key of `dests` is the byte offset of a JUMPDEST opcode. -/
def DestsOk (bytes : List Nat) (m : List (Int × Int)) : Prop :=
  ∀ kv ∈ m, jsIndex bytes kv.1 = some opJUMPDEST

/-- Every key of `notPayable` is the byte offset of a JUMPDEST opcode
whose three following bytes are CALLVALUE, DUP1, ISZERO. -/
def NPOk (bytes : List Nat) (m : List (Int × Int)) : Prop :=
  ∀ kv ∈ m, jsIndex bytes kv.1 = some opJUMPDEST
    ∧ jsIndex bytes (kv.1 + 1) = some opCALLVALUE
    ∧ jsIndex bytes (kv.1 + 2) = some opDUP1
    ∧ jsIndex bytes (kv.1 + 3) = some opISZERO

def C10Inv (bytes : List Nat) (st : ExtractState) (code : BytecodeIter) : Prop :=
  code.bytecode = bytes ∧ DestsOk bytes st.dests ∧ NPOk bytes st.notPayable

lemma C10_step (bytes : List Nat) :
    ∀ (st : ExtractState) (code : BytecodeIter) (st1 : ExtractState),
    code.hasMore = true → C10Inv bytes st code →
    stepRules st code.next.2 code.next.1 = .ok st1 → C10Inv bytes st1 code.next.2 := by
  intro st code st1 hmore hq heq
  have hmore' : code.nextPos < code.bytecode.length := by
    simpa [BytecodeIter.hasMore] using hmore
  have hinst : code.next.1 = listGetD code.bytecode code.nextPos 0 := by
    rw [BytecodeIter.next_of_hasMore code hmore']
  have hnp : (code.next.2).nextPos
      = code.nextPos + 1 + pushWidth (listGetD code.bytecode code.nextPos 0) := by
    rw [BytecodeIter.next_of_hasMore code hmore']
  have hbyte : (code.next.2).bytecode = code.bytecode := BytecodeIter.next_bytecode code
  have hbyte2 : (code.next.2).bytecode = bytes := by rw [hbyte, hq.1]
  unfold stepRules at heq
  split at heq
  · injection heq with heq
    subst heq
    exact ⟨hbyte2, hq.2.1, hq.2.2⟩
  · split at heq
    · injection heq with heq
      subst heq
      exact ⟨hbyte2, hq.2.1, hq.2.2⟩
    · split at heq
      · -- JUMPDEST branch: the recorded key is the JUMPDEST's byte offset.
        rename_i h3
        have hw0 : pushWidth (listGetD code.bytecode code.nextPos 0) = 0 := by
          rw [← hinst, h3]
          decide
        have hpos2 : (code.next.2).pos = (code.nextPos : Int) := by
          unfold BytecodeIter.pos
          rw [hnp, hw0]
          push_cast
          omega
        have hkey : jsIndex bytes ((code.next.2).pos) = some opJUMPDEST := by
          rw [hpos2]
          unfold jsIndex
          rw [if_neg (by omega), Int.toNat_natCast, ← hq.1, listGet_lt _ _ hmore',
            ← hinst, h3]
        split at heq
        · rename_i hguard
          simp only [Bool.and_eq_true] at hguard
          have hcv := eqJS_eq hguard.1.1
          have hdup := eqJS_eq hguard.1.2
          have hiz := eqJS_eq hguard.2
          unfold BytecodeIter.atOp at hcv hdup hiz
          rw [if_neg (by rw [hpos2]; omega), hbyte2] at hcv
          rw [if_neg (by rw [hpos2]; omega), hbyte2] at hdup
          rw [if_neg (by rw [hpos2]; omega), hbyte2] at hiz
          injection heq with heq
          subst heq
          refine ⟨hbyte2, ?_, ?_⟩
          · exact upsert_keys (fun k => jsIndex bytes k = some opJUMPDEST)
              st.dests _ _ hq.2.1 hkey
          · exact upsert_keys (fun k => jsIndex bytes k = some opJUMPDEST
                ∧ jsIndex bytes (k + 1) = some opCALLVALUE
                ∧ jsIndex bytes (k + 2) = some opDUP1
                ∧ jsIndex bytes (k + 3) = some opISZERO)
              st.notPayable _ _ hq.2.2 ⟨hkey, hcv, hdup, hiz⟩
        · injection heq with heq
          subst heq
          refine ⟨hbyte2, ?_, hq.2.2⟩
          exact upsert_keys (fun k => jsIndex bytes k = some opJUMPDEST)
            st.dests _ _ hq.2.1 hkey
      · split at heq
        · split at heq
          · simp at heq
          · injection heq with heq
            subst heq
            exact ⟨hbyte2, hq.2.1, hq.2.2⟩
        · injection heq with heq
          subst heq
          exact ⟨hbyte2, hq.2.1, hq.2.2⟩

/-- C10: after a successful scan, every key of `dests` is the exact byte
offset of a JUMPDEST opcode of the input, and every key of `notPayable`
is a JUMPDEST byte offset whose three immediately following bytes are
CALLVALUE, DUP1, ISZERO: since JUMPDEST has push width 0, `pos()` at the
moment rule E3 fires is the JUMPDEST's start byte, even though `pos()` is
not a start byte after a PUSH. -/
theorem C10_dest_keys (bytes : List Nat) (st : ExtractState)
    (h : extractLoopFull bytes = .ok st) :
    DestsOk bytes st.dests ∧ NPOk bytes st.notPayable := by
  unfold extractLoopFull at h
  obtain ⟨c, hc⟩ := extractLoop_inv (C10Inv bytes) (C10_step bytes) _ _ _ _
    ⟨rfl, fun _ hmem => absurd hmem (List.not_mem_nil _),
      fun _ hmem => absurd hmem (List.not_mem_nil _)⟩ h
  exact ⟨hc.2.1, hc.2.2⟩

/-- C10 witness: on `5b 34 80 15` the single recorded `notPayable` key 0
points at the JUMPDEST and its guard bytes. -/
theorem C10_witness :
    jsIndex [0x5b, 0x34, 0x80, 0x15] 0 = some opJUMPDEST
    ∧ jsIndex [0x5b, 0x34, 0x80, 0x15] (0 + 1) = some opCALLVALUE
    ∧ jsIndex [0x5b, 0x34, 0x80, 0x15] (0 + 2) = some opDUP1
    ∧ jsIndex [0x5b, 0x34, 0x80, 0x15] (0 + 3) = some opISZERO := by
  refine (C10_dest_keys [0x5b, 0x34, 0x80, 0x15]
    { abi := [], jumps := [], dests := [(0, 0)], notPayable := [(0, 0)], lastPush32 := [] }
    (by decide)).2 ((0 : Int), (0 : Int)) (by decide)


/-! ## Claim C5: the position ring -/

lemma tail_drop_own : ∀ (l : List Nat) (n : Nat), (l.drop n).tail = l.drop (n + 1)
  | [], n => by simp
  | _ :: _, 0 => by simp
  | _ :: xs, n + 1 => by
    simp only [List.drop]
    exact tail_drop_own xs n

lemma drop_append_le : ∀ (l : List Nat) (x : Nat) (n : Nat), n ≤ l.length →
    (l ++ [x]).drop n = l.drop n ++ [x]
  | _, _, 0, _ => by simp
  | [], _, n + 1, h => absurd h (by simp)
  | _ :: xs, x, n + 1, h => by
    simpa using drop_append_le xs x n (by simpa using h)

lemma take_succ_getD : ∀ (l : List Nat) (m : Nat), m < l.length →
    l.take (m + 1) = l.take m ++ [l.getD m 0]
  | [], m, h => absurd h (by simp)
  | x :: xs, 0, _ => by simp
  | _ :: xs, m + 1, h => by
    simpa using take_succ_getD xs m (by simpa using h)

/-- After `m` decoding steps the ring holds exactly the positions of the
last `min m K` decoded instructions, in order. -/
lemma ringAfter (B : List Nat) (K : Nat) (hK : 1 ≤ K) :
    ∀ m, m ≤ (instPositions B).length →
      (runNext (mkIter B K) m).posBuffer
        = ((instPositions B).take m).drop (m - min m K)
  | 0, _ => by simp [runNext, mkIter]
  | m + 1, hm => by
    have ih := ringAfter B K hK m (by omega)
    have hspec := runNext_mkIter_spec B K m (by omega)
    have hlt : (instPositions B).getD m 0 < B.length := instPositions_lt B m (by omega)
    have hbc : (runNext (mkIter B K) m).bytecode = B := runNext_bytecode _ _
    have hpb : (runNext (mkIter B K) m).posBufferSize = K := by
      rw [runNext_posBufferSize]
      unfold mkIter
      simp only []
      rw [if_neg (by omega)]
    have hmP : m ≤ (instPositions B).length := by omega
    have hlen : ((((instPositions B).take m).drop (m - min m K)).length) = min m K := by
      rw [List.length_drop, List.length_take]
      omega
    rw [runNext_succ,
      BytecodeIter.next_of_hasMore _ (by rw [hbc, hspec.1]; exact hlt)]
    simp only []
    rw [hpb, ih, hspec.1, hlen]
    by_cases hmK : m < K
    · rw [if_neg (by omega)]
      have h0 : m - min m K = 0 := by omega
      have h1 : m + 1 - min (m + 1) K = 0 := by omega
      rw [h0, h1, List.drop_zero, List.drop_zero, ← take_succ_getD _ _ (by omega)]
    · rw [if_pos (by omega)]
      rw [tail_drop_own, take_succ_getD _ _ (by omega : m < (instPositions B).length)]
      rw [drop_append_le _ _ _ (by rw [List.length_take]; omega)]
      have he : m - min m K + 1 = m + 1 - min (m + 1) K := by omega
      rw [he]

/-- Resolution of a negative `at()` argument through the ring. -/
lemma atOp_neg (it : BytecodeIter) (k : Nat) (q : Nat) (hk : 0 < k)
    (hres : jsIndex it.posBuffer ((it.posBuffer.length : Int) + -(k : Int)) = some q) :
    it.atOp (-(k : Int)) = jsIndex it.bytecode (q : Int) := by
  unfold BytecodeIter.atOp
  rw [if_pos (by omega), hres]


lemma listGetD_eq_getD : ∀ (l : List Nat) (n d : Nat), listGetD l n d = l.getD n d
  | [], _, _ => rfl
  | _ :: _, 0, _ => rfl
  | _ :: xs, n + 1, d => listGetD_eq_getD xs n d

/-- C5: after `m` decoding steps with ring capacity `K ≥ 1`, the ring holds
the byte positions of the last `min(m, K)` decoded instructions in order,
and for `1 ≤ k ≤ min(m, K)`, `at(-k)` returns the opcode decoded `k` steps
ago, regardless of the PUSH widths inside the window. -/
theorem C5_ring_correct (B : List Nat) (K m k : Nat) (hK : 1 ≤ K)
    (hm : m ≤ (instPositions B).length) (hk1 : 1 ≤ k) (hk : k ≤ min m K) :
    (runNext (mkIter B K) m).posBuffer
      = ((instPositions B).take m).drop (m - min m K)
    ∧ (runNext (mkIter B K) m).atOp (-(k : Int))
      = some (listGetD B ((instPositions B).getD (m - k) 0) 0) := by
  have hring := ringAfter B K hK m hm
  refine ⟨hring, ?_⟩
  have hres : jsIndex ((runNext (mkIter B K) m).posBuffer)
      ((((runNext (mkIter B K) m).posBuffer).length : Int) + -(k : Int))
      = some ((instPositions B).getD (m - k) 0) := by
    rw [hring]
    have hlen : ((((instPositions B).take m).drop (m - min m K)).length) = min m K := by
      rw [List.length_drop, List.length_take]
      omega
    rw [hlen]
    unfold jsIndex
    rw [if_neg (by omega)]
    have htn : (((min m K : Nat) : Int) + -(k : Int)).toNat = min m K - k := by omega
    rw [htn, listGet_drop, listGet_take _ _ _ (by omega)]
    have hidx : m - min m K + (min m K - k) = m - k := by omega
    rw [hidx, listGet_lt _ _ (by omega), listGetD_eq_getD]
  rw [atOp_neg _ k _ (by omega) hres]
  rw [runNext_bytecode]
  show jsIndex (mkIter B K).bytecode _ = _
  unfold mkIter jsIndex
  simp only []
  rw [if_neg (by omega), Int.toNat_natCast]
  exact listGet_lt _ _ (instPositions_lt B (m - k) (by omega))

/-- C5 witness: two steps over `60 05 00` with capacity 4: the ring is
`[0, 2]` and `at(-1)` is the STOP decoded at byte 2. -/
theorem C5_witness :
    (runNext (mkIter [0x60, 0x05, 0x00] 4) 2).posBuffer = [0, 2]
    ∧ (runNext (mkIter [0x60, 0x05, 0x00] 4) 2).atOp (-1) = some 0x00 := by
  have h := C5_ring_correct [0x60, 0x05, 0x00] 4 2 1 (by decide) (by decide) (by decide)
    (by decide)
  simp only [Nat.cast_one] at h
  exact ⟨by rw [h.1]; decide, by rw [h.2]; decide⟩


end WhatsABI
